import Mathlib

/-!
Verification of the path-cleaning middleware in `src/lib.rs`
(`CleanPathNormalization::call` and `has_ext`), against its specification.

Paths are modelled as `List Char` (the `str` contents seen by the Rust
code).  The middleware's request/URI glue is modelled by the `Uri`
structure and the `call` function below.  The external dependency
`path_clean::clean` is not part of this repository; it is modelled from
the specification (§4.2) as `clean` below.
-/

set_option maxHeartbeats 1000000

/-- Translation of `path.ends_with('/')` (lib.rs line 73). -/
def endsWithSep (p : List Char) : Bool :=
  p.getLast? == some '/'

/-- Translation of `str::contains` specialised to the two-character
needles `"/."` and `"//"` used by the fast path (lib.rs lines 76-77):
`hasSub2 a b p` is true iff the two-character string `ab` occurs as a
contiguous substring of `p`. -/
def hasSub2 (a b : Char) : List Char → Bool
  | [] => false
  | x :: rest =>
    ((match rest with
      | y :: _ => x == a && y == b
      | [] => false) : Bool) || hasSub2 a b rest

/-- Translation of `path.rfind('.')` (lib.rs line 113): index of the
last occurrence of `'.'`, if any. -/
def rfindIdx : List Char → Option Nat
  | [] => none
  | c :: rest =>
    match rfindIdx rest with
    | some i => some (i + 1)
    | none => if c = '.' then some 0 else none

/-- Translation of `has_ext` (lib.rs lines 112-119): the suffix after
the last `'.'` is non-empty and contains no separator. -/
def has_ext (path : List Char) : Bool :=
  match rfindIdx path with
  | some index =>
    let sub := path.drop (index + 1)
    !sub.isEmpty && !sub.contains '/'
  | none => false

/-- Splitting a path into its `'/'`-separated segments (the segment view
used by the canonicalizer, spec §4.2 step 1; `"/a/b/"` becomes
`["", "a", "b", ""]`). -/
def splitSegs : List Char → List (List Char)
  | [] => [[]]
  | c :: rest =>
    if c = '/' then [] :: splitSegs rest
    else
      match splitSegs rest with
      | [] => [[c]]
      | s :: ss => (c :: s) :: ss

/-- Modelled from the spec: one step of the segment-stack fold of
§4.2 step 2 (the body of `path_clean::clean`, an external crate not in
this repository).  Empty and `"."` segments are skipped, `".."` pops the
last accumulated segment if any, and any other segment is pushed. -/
def stepSeg (acc : List (List Char)) (seg : List Char) : List (List Char) :=
  if seg = [] then acc
  else if seg = ['.'] then acc
  else if seg = ['.', '.'] then acc.dropLast
  else acc ++ [seg]

/-- Modelled from the spec: the resolved output segment stack of §4.2
steps 1-2. -/
def cleanSegs (p : List Char) : List (List Char) :=
  (splitSegs p).foldl stepSeg []

/-- Joining segments with single separators (spec §4.2 step 3, without
the leading separator). -/
def joinSegs : List (List Char) → List Char
  | [] => []
  | [s] => s
  | s :: rest => s ++ '/' :: joinSegs rest

/-- Modelled from the spec: `path_clean::clean` (lib.rs line 83), an
external crate not part of this repository, per §4.2 steps 1-3: split
into segments, fold with `stepSeg`, reassemble behind a single leading
separator.  Excess `".."` is absorbed at the root and the empty stack
reassembles to `"/"`. -/
def clean (p : List Char) : List Char :=
  '/' :: joinSegs (cleanSegs p)

/-- Translation of lib.rs lines 83-88: clean the original path, then
append a trailing separator unless the result is the root, when the
original path ended in a separator or the cleaned path has no
extension. -/
def canonicalize (p : List Char) : List Char :=
  if clean p = ['/'] then clean p
  else if endsWithSep p || !has_ext (clean p) then clean p ++ ['/']
  else clean p

/-- Translation of the non-allocating fast path condition
(lib.rs lines 76-79): no `"/."` substring, no `"//"` substring, and
`has_ext` XOR trailing separator. -/
def fastCheck (p : List Char) : Bool :=
  !hasSub2 '/' '.' p && !hasSub2 '/' '/' p
    && Bool.xor (has_ext p) (endsWithSep p)

/-- Modelled from the spec: the request URI seen by the middleware
(§6); scheme and authority are opaque strings, the path is the raw
request path and the query is the raw query string if present. -/
structure Uri where
  scheme : Option (List Char)
  authority : Option (List Char)
  path : List Char
  query : Option (List Char)
deriving DecidableEq

/-- Outcome of one middleware call: pass the request through to the
inner service, or answer with a permanent redirect to the given URI. -/
inductive CallResult where
  | passThrough (u : Uri)
  | redirect (u : Uri)
deriving DecidableEq

/-- Translation of `CleanPathNormalization::call` (lib.rs lines 71-109):
fast path passes the request through; otherwise the canonical path is
computed and, if it differs from the original, a permanent redirect is
produced whose target is the original URI with only the path-and-query
portion replaced (the canonical path with the original query string
reattached). -/
def call (u : Uri) : CallResult :=
  if fastCheck u.path then CallResult.passThrough u
  else if canonicalize u.path ≠ u.path then
    CallResult.redirect { u with path := canonicalize u.path }
  else CallResult.passThrough u

/-- Rendering of a path with an optional query string reattached
(`format!("{}?{}", path, q)`, lib.rs line 94). -/
def renderPQ (path : List Char) (query : Option (List Char)) : List Char :=
  match query with
  | some q => path ++ '?' :: q
  | none => path

/-- Modelled from the spec: the textual form of a target URI
(`uri.to_string()`, lib.rs line 103) — scheme and authority when
present, followed by the path and query. -/
def renderUri (u : Uri) : List Char :=
  (match u.scheme with
   | some s => s ++ [':', '/', '/']
   | none => []) ++
  (match u.authority with
   | some a => a
   | none => []) ++ renderPQ u.path u.query

/-- Observation of one middleware call: the `Location` header value of
the redirect response, if a redirect is produced. -/
def redirectLocation (u : Uri) : Option (List Char) :=
  match call u with
  | CallResult.redirect r => some (renderUri r)
  | CallResult.passThrough _ => none

/-- Continuation byte of UTF-8 (`0x80 ≤ b < 0xC0`). -/
def contB (b : Nat) : Bool :=
  0x80 ≤ b && b < 0xC0

/-- Byte-level character structure of UTF-8, checked one byte at a
time: `need` is the number of continuation bytes still owed by the
current character.  A leading byte below `0x80` stands alone, a byte in
`[0xC0, 0xE0)` owes one continuation, `[0xE0, 0xF0)` two, `[0xF0, 0xF8)`
three; stray continuation bytes and bytes `≥ 0xF8` are rejected. -/
def utf8Run : Nat → List Nat → Bool
  | 0, [] => true
  | _ + 1, [] => false
  | n + 1, b :: rest => contB b && utf8Run n rest
  | 0, b :: rest =>
    if b < 0x80 then utf8Run 0 rest
    else if b < 0xC0 then false
    else if b < 0xE0 then utf8Run 1 rest
    else if b < 0xF0 then utf8Run 2 rest
    else if b < 0xF8 then utf8Run 3 rest
    else false

/-- Byte-level character structure of a whole UTF-8 string (no pending
continuation bytes at either end).  Every valid UTF-8 string satisfies
it, and it determines the character boundaries, which is all the
slice-safety claim needs. -/
def utf8Shaped (bs : List Nat) : Bool :=
  utf8Run 0 bs

/-- Byte-level model of `path.rfind('.')` (lib.rs line 113): `str::rfind`
returns the byte index of the last occurrence of the pattern; `'.'` is
the single byte 46. -/
def rfindDot : List Nat → Option Nat
  | [] => none
  | b :: rest =>
    match rfindDot rest with
    | some i => some (i + 1)
    | none => if b = 46 then some 0 else none

/-- Byte-level model of `has_ext` (lib.rs lines 112-119): the slice
`&path[index + 1..]` is `drop (index + 1)`, `'/'` is byte 47. -/
def has_extBytes (path : List Nat) : Bool :=
  match rfindDot path with
  | some index =>
    let sub := path.drop (index + 1)
    !sub.isEmpty && !sub.contains 47
  | none => false

/-- Segment that survives the canonicalizing fold: non-empty, not a dot
segment, and free of separators. -/
def goodSeg (s : List Char) : Prop :=
  s ≠ [] ∧ s ≠ ['.'] ∧ s ≠ ['.', '.'] ∧ '/' ∉ s

/-- Segment as it may appear after a separator in a path that passes the
two substring tests of the fast path: non-empty, not starting with a
dot, and free of separators. -/
def properSeg (s : List Char) : Prop :=
  s ≠ [] ∧ s.head? ≠ some '.' ∧ '/' ∉ s

/-- Shape of the segment list of the remainder of a path after a
separator, in a path with no `"//"` and no `"/."` substring: every
segment is proper, except that the final one may be empty (a trailing
separator). -/
inductive SegsAfter : List (List Char) → Prop where
  | lastEmpty : SegsAfter [[]]
  | lastSeg (s : List Char) : properSeg s → SegsAfter [s]
  | cons (s : List Char) (l : List (List Char)) :
      properSeg s → SegsAfter l → SegsAfter (s :: l)

theorem splitSegs_ne_nil (t : List Char) : splitSegs t ≠ [] := by
  cases t with
  | nil => simp [splitSegs]
  | cons c rest =>
    simp only [splitSegs]
    split
    · simp
    · split <;> simp

theorem splitSegs_cons_sep (rest : List Char) :
    splitSegs ('/' :: rest) = [] :: splitSegs rest := by
  simp [splitSegs]

theorem splitSegs_cons_of_ne {c : Char} (hc : ¬ c = '/') {rest s : List Char}
    {ss : List (List Char)} (hsp : splitSegs rest = s :: ss) :
    splitSegs (c :: rest) = (c :: s) :: ss := by
  simp only [splitSegs, if_neg hc, hsp]

theorem noSlash_splitSegs : ∀ (t : List Char), ∀ s ∈ splitSegs t, '/' ∉ s := by
  intro t
  induction t with
  | nil =>
    intro s hs
    simp [splitSegs] at hs
    simp [hs]
  | cons c rest ih =>
    intro s hs
    by_cases hc : c = '/'
    · rw [hc] at hs
      simp [splitSegs] at hs
      rcases hs with hs | hs
      · simp [hs]
      · exact ih s hs
    · rcases hsp : splitSegs rest with _ | ⟨s₀, ss₀⟩
      · exact absurd hsp (splitSegs_ne_nil rest)
      · simp only [splitSegs, if_neg hc, hsp] at hs
        rcases List.mem_cons.mp hs with hs | hs
        · subst hs
          intro hmem
          rcases List.mem_cons.mp hmem with h | h
          · exact hc h.symm
          · exact ih s₀ (by rw [hsp]; exact List.mem_cons_self _ _) h
        · exact ih s (by rw [hsp]; exact List.mem_cons_of_mem _ hs)

theorem joinSegs_splitSegs : ∀ (t : List Char), joinSegs (splitSegs t) = t := by
  intro t
  induction t with
  | nil => rfl
  | cons c rest ih =>
    by_cases hc : c = '/'
    · subst hc
      rcases hsp : splitSegs rest with _ | ⟨s, ss⟩
      · exact absurd hsp (splitSegs_ne_nil rest)
      · rw [hsp] at ih
        simp only [splitSegs, if_pos rfl, hsp]
        simp [joinSegs, ih]
    · rcases hsp : splitSegs rest with _ | ⟨s, ss⟩
      · exact absurd hsp (splitSegs_ne_nil rest)
      · rw [hsp] at ih
        simp only [splitSegs, if_neg hc, hsp]
        cases ss with
        | nil =>
          simp only [joinSegs] at ih ⊢
          rw [ih]
        | cons s' ss' =>
          simp only [joinSegs] at ih ⊢
          rw [List.cons_append, ih]

theorem splitSegs_noSlash {s : List Char} (h : '/' ∉ s) : splitSegs s = [s] := by
  induction s with
  | nil => rfl
  | cons c s' ih =>
    have hc : ¬ c = '/' := fun hh => h (hh ▸ List.mem_cons_self _ _)
    have hs' : '/' ∉ s' := fun hh => h (List.mem_cons_of_mem _ hh)
    simp only [splitSegs, if_neg hc, ih hs']

theorem splitSegs_append_sep :
    ∀ (s l : List Char), '/' ∉ s → splitSegs (s ++ '/' :: l) = s :: splitSegs l := by
  intro s l h
  induction s with
  | nil => simp [splitSegs]
  | cons c s' ih =>
    have hc : ¬ c = '/' := fun hh => h (hh ▸ List.mem_cons_self _ _)
    have hs' : '/' ∉ s' := fun hh => h (List.mem_cons_of_mem _ hh)
    rw [List.cons_append, splitSegs_cons_of_ne hc (ih hs')]

theorem splitSegs_joinSegs :
    ∀ (segs : List (List Char)), segs ≠ [] → (∀ s ∈ segs, '/' ∉ s) →
      splitSegs (joinSegs segs) = segs := by
  intro segs
  induction segs with
  | nil => intro h; exact absurd rfl h
  | cons s rest ih =>
    intro _ hmem
    cases rest with
    | nil =>
      simp only [joinSegs]
      exact splitSegs_noSlash (hmem s (List.mem_cons_self _ _))
    | cons s' r' =>
      simp only [joinSegs]
      rw [splitSegs_append_sep s _ (hmem s (List.mem_cons_self _ _))]
      rw [ih (by simp) (fun x hx => hmem x (List.mem_cons_of_mem _ hx))]

theorem splitSegs_append_last :
    ∀ (x : List Char), splitSegs (x ++ ['/']) = splitSegs x ++ [[]] := by
  intro x
  induction x with
  | nil => rfl
  | cons c x' ih =>
    by_cases hc : c = '/'
    · subst hc
      rw [List.cons_append, splitSegs_cons_sep, splitSegs_cons_sep, ih]
      rfl
    · rcases hsp : splitSegs x' with _ | ⟨s, ss⟩
      · exact absurd hsp (splitSegs_ne_nil x')
      · rw [hsp, List.cons_append] at ih
        rw [List.cons_append, splitSegs_cons_of_ne hc ih, splitSegs_cons_of_ne hc hsp]
        rfl

theorem joinSegs_ne_nil {s : List Char} (rest : List (List Char)) (h : s ≠ []) :
    joinSegs (s :: rest) ≠ [] := by
  cases rest with
  | nil => simpa [joinSegs] using h
  | cons s' r' => simp [joinSegs]

theorem getLast?_joinSegs :
    ∀ (segs : List (List Char)), segs ≠ [] → (∀ s ∈ segs, s ≠ [] ∧ '/' ∉ s) →
      (joinSegs segs).getLast? ≠ some '/' := by
  intro segs
  induction segs with
  | nil => intro h; exact absurd rfl h
  | cons s rest ih =>
    intro _ hmem
    cases rest with
    | nil =>
      simp only [joinSegs]
      intro hlast
      exact (hmem s (List.mem_cons_self _ _)).2
        (List.mem_of_getLast?_eq_some hlast)
    | cons s' r' =>
      simp only [joinSegs]
      rw [List.getLast?_append_cons]
      have hj : joinSegs (s' :: r') ≠ [] :=
        joinSegs_ne_nil r' (hmem s' (List.mem_cons_of_mem _ (List.mem_cons_self _ _))).1
      rcases hje : joinSegs (s' :: r') with _ | ⟨y, ys⟩
      · exact absurd hje hj
      · rw [List.getLast?_cons_cons]
        rw [hje] at ih
        exact ih (by simp) (fun x hx => hmem x (List.mem_cons_of_mem _ hx))

theorem hasSub2_cons_false {a b x : Char} {rest : List Char}
    (h : hasSub2 a b (x :: rest) = false) : hasSub2 a b rest = false := by
  simp only [hasSub2, Bool.or_eq_false_iff] at h
  exact h.2

theorem hasSub2_cons_cons_false {a b x y : Char} {r : List Char}
    (h : hasSub2 a b (x :: y :: r) = false) (hx : x = a) : y ≠ b := by
  simp only [hasSub2, Bool.or_eq_false_iff, Bool.and_eq_false_iff] at h
  rcases h.1 with h1 | h1
  · exact absurd hx (by simpa using h1)
  · simpa using h1

theorem hasSub2_append_noSlash {b : Char} :
    ∀ (s l : List Char), '/' ∉ s → hasSub2 '/' b (s ++ l) = hasSub2 '/' b l := by
  intro s l h
  induction s with
  | nil => rfl
  | cons c s' ih =>
    have hc : ¬ c = '/' := fun hh => h (hh ▸ List.mem_cons_self _ _)
    have hs' : '/' ∉ s' := fun hh => h (List.mem_cons_of_mem _ hh)
    rw [List.cons_append]
    have hmatch :
        ((match s' ++ l with
          | y :: _ => c == '/' && y == b
          | [] => false) : Bool) = false := by
      rcases s' ++ l with _ | ⟨y, ys⟩
      · rfl
      · simp [beq_eq_false_iff_ne, hc]
    simp only [hasSub2, hmatch, Bool.false_or]
    exact ih hs'

theorem hasSub2_cons_cons (a b x y : Char) (r : List Char) :
    hasSub2 a b (x :: y :: r) = ((x == a && y == b) || hasSub2 a b (y :: r)) := rfl

theorem hasSub2_sep_seg :
    ∀ (s l : List Char), '/' ∉ s → s ≠ [] →
      hasSub2 '/' '/' ('/' :: (s ++ l)) = hasSub2 '/' '/' l := by
  intro s l h hne
  rcases s with _ | ⟨c, s'⟩
  · exact absurd rfl hne
  · have hc : ¬ c = '/' := fun hh => h (hh ▸ List.mem_cons_self _ _)
    rw [List.cons_append, hasSub2_cons_cons]
    have hc' : (c == '/') = false := beq_eq_false_iff_ne.mpr hc
    simp only [hc', Bool.and_false, Bool.false_or]
    rw [← List.cons_append]
    exact hasSub2_append_noSlash (c :: s') l h

theorem noDD_joinSegs :
    ∀ (segs : List (List Char)), (∀ s ∈ segs, s ≠ [] ∧ '/' ∉ s) →
      hasSub2 '/' '/' ('/' :: joinSegs segs) = false := by
  intro segs
  induction segs with
  | nil => intro _; rfl
  | cons s rest ih =>
    intro hmem
    obtain ⟨hne, hns⟩ := hmem s (List.mem_cons_self _ _)
    cases rest with
    | nil =>
      have := hasSub2_sep_seg s [] hns hne
      simpa [joinSegs] using this
    | cons s' r' =>
      simp only [joinSegs]
      rw [hasSub2_sep_seg s ('/' :: joinSegs (s' :: r')) hns hne]
      have : hasSub2 '/' '/' ('/' :: joinSegs (s' :: r')) = false :=
        ih (fun x hx => hmem x (List.mem_cons_of_mem _ hx))
      exact this

theorem noDD_joinSegs_sep :
    ∀ (segs : List (List Char)), segs ≠ [] → (∀ s ∈ segs, s ≠ [] ∧ '/' ∉ s) →
      hasSub2 '/' '/' (('/' :: joinSegs segs) ++ ['/']) = false := by
  intro segs
  induction segs with
  | nil => intro h; exact absurd rfl h
  | cons s rest ih =>
    intro _ hmem
    obtain ⟨hne, hns⟩ := hmem s (List.mem_cons_self _ _)
    cases rest with
    | nil =>
      simp only [joinSegs, List.cons_append]
      rw [hasSub2_sep_seg s ['/'] hns hne]
      rfl
    | cons s' r' =>
      simp only [joinSegs, List.cons_append, List.append_assoc]
      rw [hasSub2_sep_seg s ('/' :: (joinSegs (s' :: r') ++ ['/'])) hns hne]
      have := ih (by simp) (fun x hx => hmem x (List.mem_cons_of_mem _ hx))
      rw [List.cons_append] at this
      exact this

theorem stepSeg_empty (acc : List (List Char)) : stepSeg acc [] = acc := by
  simp [stepSeg]

theorem foldl_stepSeg_factor :
    ∀ (l : List (List Char)), (∀ s ∈ l, s = [] ∨ (s ≠ ['.'] ∧ s ≠ ['.', '.'])) →
      ∀ acc, List.foldl stepSeg acc l = acc ++ List.foldl stepSeg [] l := by
  intro l
  induction l with
  | nil => intro _ acc; simp
  | cons s l' ih =>
    intro hmem acc
    have hmem' : ∀ x ∈ l', x = [] ∨ (x ≠ ['.'] ∧ x ≠ ['.', '.']) :=
      fun x hx => hmem x (List.mem_cons_of_mem _ hx)
    by_cases h0 : s = []
    · subst h0
      simp only [List.foldl_cons, stepSeg_empty]
      exact ih hmem' acc
    · rcases hmem s (List.mem_cons_self _ _) with h | ⟨h1, h2⟩
      · exact absurd h h0
      · have e : ∀ a, stepSeg a s = a ++ [s] := by
          intro a; simp [stepSeg, h0, h1, h2]
        simp only [List.foldl_cons, e, List.nil_append]
        rw [ih hmem' (acc ++ [s]), ih hmem' [s]]
        simp [List.append_assoc]

theorem foldl_stepSeg_real :
    ∀ (l : List (List Char)), (∀ s ∈ l, s ≠ [] ∧ s ≠ ['.'] ∧ s ≠ ['.', '.']) →
      List.foldl stepSeg [] l = l := by
  intro l
  induction l with
  | nil => intro _; rfl
  | cons s l' ih =>
    intro hmem
    obtain ⟨h0, h1, h2⟩ := hmem s (List.mem_cons_self _ _)
    have hmem' : ∀ x ∈ l', x ≠ [] ∧ x ≠ ['.'] ∧ x ≠ ['.', '.'] :=
      fun x hx => hmem x (List.mem_cons_of_mem _ hx)
    have e : stepSeg [] s = [s] := by simp [stepSeg, h0, h1, h2]
    simp only [List.foldl_cons, e]
    rw [foldl_stepSeg_factor l' (fun x hx => Or.inr ⟨(hmem' x hx).2.1, (hmem' x hx).2.2⟩) [s]]
    rw [ih hmem']
    rfl

theorem foldl_stepSeg_inv :
    ∀ (l : List (List Char)) (acc : List (List Char)),
      (∀ s ∈ l, '/' ∉ s) → (∀ s ∈ acc, goodSeg s) →
      ∀ s ∈ List.foldl stepSeg acc l, goodSeg s := by
  intro l
  induction l with
  | nil => intro acc _ hacc s hs; exact hacc s hs
  | cons seg l' ih =>
    intro acc hl hacc s hs
    have hl' : ∀ x ∈ l', '/' ∉ x := fun x hx => hl x (List.mem_cons_of_mem _ hx)
    have hstep : ∀ x ∈ stepSeg acc seg, goodSeg x := by
      intro x hx
      by_cases c0 : seg = []
      · simp only [stepSeg, if_pos c0] at hx
        exact hacc x hx
      · by_cases c1 : seg = ['.']
        · simp only [stepSeg, if_neg c0, if_pos c1] at hx
          exact hacc x hx
        · by_cases c2 : seg = ['.', '.']
          · simp only [stepSeg, if_neg c0, if_neg c1, if_pos c2] at hx
            exact hacc x (List.dropLast_subset acc hx)
          · simp only [stepSeg, if_neg c0, if_neg c1, if_neg c2] at hx
            rcases List.mem_append.mp hx with h | h
            · exact hacc x h
            · have hxe : x = seg := by simpa using h
              rw [hxe]
              exact ⟨c0, c1, c2, hl seg (List.mem_cons_self _ _)⟩
    simp only [List.foldl_cons] at hs
    exact ih (stepSeg acc seg) hl' hstep s hs

theorem cleanSegs_good (p : List Char) : ∀ s ∈ cleanSegs p, goodSeg s := by
  intro s hs
  exact foldl_stepSeg_inv (splitSegs p) [] (noSlash_splitSegs p) (by simp) s hs

theorem cleanSegs_join {segs : List (List Char)} (hne : segs ≠ [])
    (hgood : ∀ s ∈ segs, goodSeg s) :
    cleanSegs ('/' :: joinSegs segs) = segs := by
  unfold cleanSegs
  rw [splitSegs_cons_sep, splitSegs_joinSegs segs hne (fun s hs => (hgood s hs).2.2.2)]
  simp only [List.foldl_cons, stepSeg_empty]
  exact foldl_stepSeg_real segs
    (fun s hs => ⟨(hgood s hs).1, (hgood s hs).2.1, (hgood s hs).2.2.1⟩)

theorem cleanSegs_join_sep {segs : List (List Char)} (hne : segs ≠ [])
    (hgood : ∀ s ∈ segs, goodSeg s) :
    cleanSegs (('/' :: joinSegs segs) ++ ['/']) = segs := by
  unfold cleanSegs
  rw [List.cons_append, splitSegs_cons_sep, splitSegs_append_last,
    splitSegs_joinSegs segs hne (fun s hs => (hgood s hs).2.2.2)]
  simp only [List.foldl_cons, stepSeg_empty, List.foldl_append]
  rw [foldl_stepSeg_real segs
    (fun s hs => ⟨(hgood s hs).1, (hgood s hs).2.1, (hgood s hs).2.2.1⟩)]
  simp [stepSeg_empty]

theorem cleanSegs_ne_nil_of_clean_ne_root {p : List Char} (h : clean p ≠ ['/']) :
    cleanSegs p ≠ [] := by
  intro h0
  apply h
  unfold clean
  rw [h0]
  rfl

theorem clean_ne_root {p : List Char} (h : cleanSegs p ≠ []) : clean p ≠ ['/'] := by
  rcases hsegs : cleanSegs p with _ | ⟨s, rest⟩
  · exact absurd hsegs h
  · have hs : s ≠ [] := (cleanSegs_good p s (by rw [hsegs]; exact List.mem_cons_self _ _)).1
    have hj := joinSegs_ne_nil rest hs
    unfold clean
    rw [hsegs]
    intro heq
    exact hj (by injection heq)

theorem endsWithSep_concat (x : List Char) : endsWithSep (x ++ ['/']) = true := by
  simp [endsWithSep, List.getLast?_concat]

theorem endsWithSep_clean {p : List Char} (h : cleanSegs p ≠ []) :
    endsWithSep (clean p) = false := by
  have hgood := cleanSegs_good p
  rcases hsegs : cleanSegs p with _ | ⟨s, rest⟩
  · exact absurd hsegs h
  · have hs := hgood s (by rw [hsegs]; exact List.mem_cons_self _ _)
    have hj : joinSegs (s :: rest) ≠ [] := joinSegs_ne_nil rest hs.1
    have hlast : (joinSegs (s :: rest)).getLast? ≠ some '/' :=
      getLast?_joinSegs (s :: rest) (by simp)
        (fun x hx => ⟨(hgood x (hsegs ▸ hx)).1, (hgood x (hsegs ▸ hx)).2.2.2⟩)
    unfold clean
    rw [hsegs]
    rcases hje : joinSegs (s :: rest) with _ | ⟨y, ys⟩
    · exact absurd hje hj
    · simp only [endsWithSep, List.getLast?_cons_cons]
      refine beq_eq_false_iff_ne.mpr ?_
      rw [← hje]
      exact hlast

theorem properSeg_notDot {s : List Char} (hp : properSeg s) :
    s ≠ ['.'] ∧ s ≠ ['.', '.'] :=
  ⟨fun hh => hp.2.1 (by rw [hh]; rfl), fun hh => hp.2.1 (by rw [hh]; rfl)⟩

theorem properSeg_push {s : List Char} (hp : properSeg s) :
    ∀ a, stepSeg a s = a ++ [s] := by
  intro a
  obtain ⟨hd, hdd⟩ := properSeg_notDot hp
  simp [stepSeg, hp.1, hd, hdd]

theorem splitSegs_shape :
    ∀ (t : List Char), hasSub2 '/' '/' t = false → hasSub2 '/' '.' t = false →
      (∃ s ss, splitSegs t = s :: ss ∧ '/' ∉ s ∧ (ss = [] ∨ SegsAfter ss)) ∧
      (∀ c r, t = c :: r → c ≠ '/' → c ≠ '.' → SegsAfter (splitSegs t)) := by
  intro t
  induction t with
  | nil =>
    intro _ _
    constructor
    · exact ⟨[], [], rfl, by simp, Or.inl rfl⟩
    · intro c r heq
      exact absurd heq (by simp)
  | cons c rest ih =>
    intro h1 h2
    have h1r : hasSub2 '/' '/' rest = false := hasSub2_cons_false h1
    have h2r : hasSub2 '/' '.' rest = false := hasSub2_cons_false h2
    by_cases hc : c = '/'
    · subst hc
      have hafter : SegsAfter (splitSegs rest) := by
        cases rest with
        | nil => exact SegsAfter.lastEmpty
        | cons c' r' =>
          have hc' : c' ≠ '/' := hasSub2_cons_cons_false h1 rfl
          have hc'' : c' ≠ '.' := hasSub2_cons_cons_false h2 rfl
          exact (ih h1r h2r).2 c' r' rfl hc' hc''
      refine ⟨⟨[], splitSegs rest, by rw [splitSegs_cons_sep], by simp, Or.inr hafter⟩, ?_⟩
      intro c₀ r₀ heq hc₀ _
      have : c₀ = '/' := by injection heq with hh _; exact hh.symm
      exact absurd this hc₀
    · obtain ⟨⟨s, ss, heq, hns, hrest⟩, _⟩ := ih h1r h2r
      have hsplit : splitSegs (c :: rest) = (c :: s) :: ss := splitSegs_cons_of_ne hc heq
      have hns' : '/' ∉ c :: s := by
        intro hmem
        rcases List.mem_cons.mp hmem with hh | hh
        · exact hc hh.symm
        · exact hns hh
      refine ⟨⟨c :: s, ss, hsplit, hns', hrest⟩, ?_⟩
      intro c₀ r₀ heq₀ hc₀ hcdot
      injection heq₀ with hceq hreq
      have hcd : c ≠ '.' := fun hh => hcdot (hceq ▸ hh)
      have hproper : properSeg (c :: s) := ⟨by simp, by simp [hcd], hns'⟩
      rw [hsplit]
      rcases hrest with rfl | hafter
      · exact SegsAfter.lastSeg _ hproper
      · exact SegsAfter.cons _ _ hproper hafter

theorem segsAfter_splitSegs {t : List Char}
    (h1 : hasSub2 '/' '/' ('/' :: t) = false)
    (h2 : hasSub2 '/' '.' ('/' :: t) = false) : SegsAfter (splitSegs t) := by
  cases t with
  | nil => exact SegsAfter.lastEmpty
  | cons c r =>
    have hc : c ≠ '/' := hasSub2_cons_cons_false h1 rfl
    have hcd : c ≠ '.' := hasSub2_cons_cons_false h2 rfl
    exact (splitSegs_shape (c :: r)
      (hasSub2_cons_false h1) (hasSub2_cons_false h2)).2 c r rfl hc hcd

theorem segsAfter_foldl {l : List (List Char)} (h : SegsAfter l) :
    (l = [[]] ∧ List.foldl stepSeg [] l = []) ∨
    (∃ l₀, l = l₀ ++ [[]] ∧ l₀ ≠ [] ∧ (∀ s ∈ l₀, properSeg s) ∧
      List.foldl stepSeg [] l = l₀) ∨
    ((∀ s ∈ l, properSeg s) ∧ List.foldl stepSeg [] l = l) := by
  induction h with
  | lastEmpty => exact Or.inl ⟨rfl, by simp [stepSeg]⟩
  | lastSeg s hp =>
    refine Or.inr (Or.inr ⟨by simpa using hp, ?_⟩)
    simp [List.foldl_cons, properSeg_push hp]
  | cons s l hp hl ih =>
    have hfold : List.foldl stepSeg [] (s :: l) = [s] ++ List.foldl stepSeg [] l := by
      have hpre : ∀ x ∈ l, x = [] ∨ (x ≠ ['.'] ∧ x ≠ ['.', '.']) := by
        intro x hx
        rcases ih with ⟨hleq, _⟩ | ⟨l₀, hleq, _, hprop₀, _⟩ | ⟨hprop, _⟩
        · rw [hleq] at hx
          simp at hx
          exact Or.inl hx
        · rw [hleq] at hx
          rcases List.mem_append.mp hx with hh | hh
          · exact Or.inr (properSeg_notDot (hprop₀ x hh))
          · exact Or.inl (by simpa using hh)
        · exact Or.inr (properSeg_notDot (hprop x hx))
      rw [List.foldl_cons, properSeg_push hp, List.nil_append]
      exact foldl_stepSeg_factor l hpre [s]
    rcases ih with ⟨hleq, hout⟩ | ⟨l₀, hleq, hne₀, hprop₀, hout⟩ | ⟨hprop, hout⟩
    · refine Or.inr (Or.inl ⟨[s], by rw [hleq]; rfl, by simp, ?_, ?_⟩)
      · intro x hx
        have : x = s := by simpa using hx
        rw [this]
        exact hp
      · rw [hfold, hout]
        rfl
    · refine Or.inr (Or.inl ⟨s :: l₀, by rw [hleq]; rfl, by simp, ?_, ?_⟩)
      · intro x hx
        rcases List.mem_cons.mp hx with hh | hh
        · rw [hh]; exact hp
        · exact hprop₀ x hh
      · rw [hfold, hout]
        rfl
    · refine Or.inr (Or.inr ⟨?_, ?_⟩)
      · intro x hx
        rcases List.mem_cons.mp hx with hh | hh
        · rw [hh]; exact hp
        · exact hprop x hh
      · rw [hfold, hout]
        rfl

theorem joinSegs_append_empty :
    ∀ (l₀ : List (List Char)), l₀ ≠ [] → joinSegs (l₀ ++ [[]]) = joinSegs l₀ ++ ['/'] := by
  intro l₀
  induction l₀ with
  | nil => intro h; exact absurd rfl h
  | cons s rest ih =>
    intro _
    cases rest with
    | nil => simp [joinSegs]
    | cons s' r' =>
      have step : (s :: s' :: r') ++ [[]] = s :: ((s' :: r') ++ [[]]) := rfl
      rw [step]
      have step2 : (s' :: r') ++ [[]] = s' :: (r' ++ [[]]) := rfl
      rw [step2]
      simp only [joinSegs]
      rw [← step2, ih (by simp)]
      simp [joinSegs, List.append_assoc]

theorem canonicalize_root {p : List Char} (h1 : clean p = ['/']) :
    canonicalize p = ['/'] := by
  unfold canonicalize
  rw [if_pos h1, h1]

theorem canonicalize_push {p : List Char} (h1 : clean p ≠ ['/'])
    (h2 : (endsWithSep p || !has_ext (clean p)) = true) :
    canonicalize p = clean p ++ ['/'] := by
  unfold canonicalize
  rw [if_neg h1, if_pos h2]

theorem canonicalize_keep {p : List Char} (h1 : clean p ≠ ['/'])
    (h2 : (endsWithSep p || !has_ext (clean p)) = false) :
    canonicalize p = clean p := by
  unfold canonicalize
  rw [if_neg h1, if_neg (by simp [h2])]

theorem fast_canon_fixed (p : List Char) (hroot : p.head? = some '/')
    (hf : fastCheck p = true) : canonicalize p = p := by
  rcases p with _ | ⟨c, t⟩
  · simp at hroot
  · have hc : c = '/' := by simpa using hroot
    subst hc
    simp only [fastCheck, Bool.and_eq_true, Bool.not_eq_true'] at hf
    obtain ⟨⟨h2, h1⟩, hx⟩ := hf
    have hafter := segsAfter_splitSegs h1 h2
    have hcs : cleanSegs ('/' :: t) = List.foldl stepSeg [] (splitSegs t) := by
      unfold cleanSegs
      rw [splitSegs_cons_sep]
      simp [List.foldl_cons, stepSeg_empty]
    rcases segsAfter_foldl hafter with ⟨hleq, hout⟩ |
      ⟨l₀, hleq, hne₀, hprop₀, hout⟩ | ⟨hprop, hout⟩
    · have ht : t = [] := by
        have hj := joinSegs_splitSegs t
        rw [hleq] at hj
        simpa [joinSegs] using hj.symm
      subst ht
      decide
    · have ht : t = joinSegs l₀ ++ ['/'] := by
        have hj := joinSegs_splitSegs t
        rw [hleq] at hj
        rw [← hj, joinSegs_append_empty l₀ hne₀]
      have hcs' : cleanSegs ('/' :: t) = l₀ := by rw [hcs, hout]
      have hclean : clean ('/' :: t) = '/' :: joinSegs l₀ := by
        unfold clean
        rw [hcs']
      have hjne : joinSegs l₀ ≠ [] := by
        rcases l₀ with _ | ⟨s, rest⟩
        · exact absurd rfl hne₀
        · exact joinSegs_ne_nil rest (hprop₀ s (List.mem_cons_self _ _)).1
      have hne_root : clean ('/' :: t) ≠ ['/'] := by
        rw [hclean]
        intro hh
        exact hjne (by injection hh)
      have hends : endsWithSep ('/' :: t) = true := by
        rw [ht, ← List.cons_append]
        exact endsWithSep_concat _
      rw [canonicalize_push hne_root (by rw [hends]; simp)]
      rw [hclean, ht, List.cons_append]
    · have ht : t = joinSegs (splitSegs t) := (joinSegs_splitSegs t).symm
      have hcs' : cleanSegs ('/' :: t) = splitSegs t := by rw [hcs, hout]
      have hclean : clean ('/' :: t) = '/' :: t := by
        unfold clean
        rw [hcs', ← ht]
      have htne : t ≠ [] := by
        rcases hsp : splitSegs t with _ | ⟨s, rest⟩
        · exact absurd hsp (splitSegs_ne_nil t)
        · have hj : joinSegs (s :: rest) ≠ [] :=
            joinSegs_ne_nil rest (hprop s (hsp ▸ List.mem_cons_self _ _)).1
          intro h0
          exact hj (by rw [← hsp, ← ht]; exact h0)
      have hne_root : clean ('/' :: t) ≠ ['/'] := by
        rw [hclean]
        intro hh
        exact htne (by injection hh)
      have hends : endsWithSep ('/' :: t) = false := by
        rcases hte : t with _ | ⟨y, ys⟩
        · exact absurd hte htne
        · simp only [endsWithSep, List.getLast?_cons_cons]
          refine beq_eq_false_iff_ne.mpr ?_
          rw [← hte, ht]
          exact getLast?_joinSegs (splitSegs t) (splitSegs_ne_nil t)
            (fun x hx => ⟨(hprop x hx).1, (hprop x hx).2.2⟩)
      have hhe : has_ext ('/' :: t) = true := by
        rw [hends] at hx
        simpa [Bool.xor_false] using hx
      rw [canonicalize_keep hne_root (by rw [hends, hclean, hhe]; simp)]
      exact hclean

theorem bool_eq_false {b : Bool} (h : ¬ b = true) : b = false := by
  cases b
  · rfl
  · exact absurd rfl h

theorem clean_clean {p : List Char} (h : cleanSegs p ≠ []) :
    clean (clean p) = clean p := by
  have h1 : cleanSegs (clean p) = cleanSegs p :=
    cleanSegs_join h (cleanSegs_good p)
  show '/' :: joinSegs (cleanSegs (clean p)) = clean p
  rw [h1]
  rfl

theorem clean_clean_sep {p : List Char} (h : cleanSegs p ≠ []) :
    clean (clean p ++ ['/']) = clean p := by
  have h1 : cleanSegs (clean p ++ ['/']) = cleanSegs p :=
    cleanSegs_join_sep h (cleanSegs_good p)
  show '/' :: joinSegs (cleanSegs (clean p ++ ['/'])) = clean p
  rw [h1]
  rfl

theorem call_cases (u : Uri) (hroot : u.path.head? = some '/') :
    (canonicalize u.path = u.path ∧ call u = CallResult.passThrough u) ∨
    (canonicalize u.path ≠ u.path ∧
      call u = CallResult.redirect ⟨u.scheme, u.authority, canonicalize u.path, u.query⟩) := by
  unfold call
  by_cases hf : fastCheck u.path = true
  · rw [if_pos hf]
    exact Or.inl ⟨fast_canon_fixed u.path hroot hf, rfl⟩
  · rw [if_neg hf]
    by_cases he : canonicalize u.path = u.path
    · rw [if_neg (fun hh => hh he)]
      exact Or.inl ⟨he, rfl⟩
    · rw [if_pos he]
      exact Or.inr ⟨he, rfl⟩

/-- C1 (amended): for every input path that begins with a separator, if
the fast-path detector accepts it then the full canonicalizer returns
it unchanged.  The converse direction of the original claim is false:
see the counterexample below. -/
theorem fastCheck_only_accepts_canonical (p : List Char)
    (hroot : p.head? = some '/') (hf : fastCheck p = true) :
    canonicalize p = p :=
  fast_canon_fixed p hroot hf

theorem fastCheck_only_accepts_canonical_witness :
    (['/', 'm', '.', 'j', 's'] : List Char).head? = some '/' ∧
      fastCheck ['/', 'm', '.', 'j', 's'] = true ∧
      canonicalize ['/', 'm', '.', 'j', 's'] = ['/', 'm', '.', 'j', 's'] :=
  ⟨by decide, by decide,
    fastCheck_only_accepts_canonical ['/', 'm', '.', 'j', 's'] (by decide) (by decide)⟩

/-- C1 counterexample: on the path `"/.a"` the canonicalizer returns the
path unchanged (it is canonical: the segment `".a"` is a plain hidden
file name with extension `"a"`), yet the fast-path detector rejects it
because it contains the substring `"/."`.  Hence the claimed equivalence
fails. -/
theorem fastCheck_not_complete :
    ¬ (fastCheck ['/', '.', 'a'] = true ↔
      canonicalize ['/', '.', 'a'] = ['/', '.', 'a']) := by
  decide

/-- C2: for a path whose canonical form is not the root, the canonical
path ends in a separator exactly when the original path ended in a
separator or the cleaned path has no extension. -/
theorem canon_trailing_policy (p : List Char) (h : canonicalize p ≠ ['/']) :
    endsWithSep (canonicalize p) = (endsWithSep p || !has_ext (clean p)) := by
  by_cases h1 : clean p = ['/']
  · exact absurd (canonicalize_root h1) h
  · have hsegs := cleanSegs_ne_nil_of_clean_ne_root h1
    by_cases h2 : (endsWithSep p || !has_ext (clean p)) = true
    · rw [canonicalize_push h1 h2, endsWithSep_concat, h2]
    · have h2' := bool_eq_false h2
      rw [canonicalize_keep h1 h2', endsWithSep_clean hsegs, h2']

theorem canon_trailing_policy_witness :
    canonicalize ['/', 'a'] ≠ ['/'] ∧
      endsWithSep (canonicalize ['/', 'a']) =
        (endsWithSep ['/', 'a'] || !has_ext (clean ['/', 'a'])) :=
  ⟨by decide, canon_trailing_policy ['/', 'a'] (by decide)⟩

/-- C3: the seven example scenarios of the specification, evaluated on
the middleware model: six redirect to the listed canonical target, and
`"/a/"` passes through unchanged with no redirect. -/
theorem example_scenarios :
    redirectLocation ⟨none, none, ['/', '.'], none⟩ = some ['/'] ∧
    redirectLocation ⟨none, none, ['/', '.', '.', '/', '/', '.', '.'], none⟩ =
      some ['/'] ∧
    redirectLocation ⟨none, none, ['/', '/', '/'], some ['a', '=', '1']⟩ =
      some ['/', '?', 'a', '=', '1'] ∧
    redirectLocation
      ⟨none, none, ['/', '/', 'a', '/', '/', 'b', '/', '/', '.', '.', '/'], none⟩ =
      some ['/', 'a', '/'] ∧
    redirectLocation ⟨none, none, ['/', '/', 'm', '.', 'j', 's'], none⟩ =
      some ['/', 'm', '.', 'j', 's'] ∧
    redirectLocation ⟨none, none, ['/', 'm', '.'], none⟩ =
      some ['/', 'm', '.', '/'] ∧
    call ⟨none, none, ['/', 'a', '/'], none⟩ =
      CallResult.passThrough ⟨none, none, ['/', 'a', '/'], none⟩ := by
  decide

/-- C4: canonicalization is idempotent — canonicalizing the canonical
result returns it unchanged. -/
theorem canon_idempotent (p : List Char) :
    canonicalize (canonicalize p) = canonicalize p := by
  by_cases h1 : clean p = ['/']
  · rw [canonicalize_root h1]
    decide
  · have hsegs : cleanSegs p ≠ [] := cleanSegs_ne_nil_of_clean_ne_root h1
    by_cases h2 : (endsWithSep p || !has_ext (clean p)) = true
    · rw [canonicalize_push h1 h2]
      have hcc : clean (clean p ++ ['/']) = clean p := clean_clean_sep hsegs
      have h1' : clean (clean p ++ ['/']) ≠ ['/'] := by rw [hcc]; exact h1
      rw [canonicalize_push h1' (by rw [endsWithSep_concat]; rfl)]
      rw [hcc]
    · have h2' := bool_eq_false h2
      rw [canonicalize_keep h1 h2']
      have hcc : clean (clean p) = clean p := clean_clean hsegs
      have h1' : clean (clean p) ≠ ['/'] := by rw [hcc]; exact h1
      have hho : has_ext (clean p) = true := by
        rcases Bool.or_eq_false_iff.mp h2' with ⟨_, hh⟩
        simpa using hh
      rw [canonicalize_keep h1' (by rw [hcc, endsWithSep_clean hsegs, hho]; rfl)]
      exact hcc

/-- C5: a path made of separators and `".."` segments only canonicalizes
to exactly the root path `"/"`: excess `".."` is absorbed at the root
and the root gains no extra trailing separator. -/
theorem canon_dots_root (p : List Char)
    (h : ∀ s ∈ splitSegs p, s = [] ∨ s = ['.', '.']) :
    canonicalize p = ['/'] := by
  have hfold : ∀ (l : List (List Char)), (∀ s ∈ l, s = [] ∨ s = ['.', '.']) →
      List.foldl stepSeg [] l = [] := by
    intro l
    induction l with
    | nil => intro _; rfl
    | cons s l' ih =>
      intro hmem
      have hmem' : ∀ x ∈ l', x = [] ∨ x = ['.', '.'] :=
        fun x hx => hmem x (List.mem_cons_of_mem _ hx)
      rcases hmem s (List.mem_cons_self _ _) with rfl | rfl
      · simp only [List.foldl_cons, stepSeg_empty]
        exact ih hmem'
      · have e : stepSeg [] ['.', '.'] = [] := by decide
        simp only [List.foldl_cons, e]
        exact ih hmem'
  have hc : cleanSegs p = [] := hfold (splitSegs p) h
  have h1 : clean p = ['/'] := by
    unfold clean
    rw [hc]
    rfl
  exact canonicalize_root h1

theorem canon_dots_root_witness :
    (∀ s ∈ splitSegs ['/', '.', '.', '/', '/', '.', '.'], s = [] ∨ s = ['.', '.']) ∧
      canonicalize ['/', '.', '.', '/', '/', '.', '.'] = ['/'] :=
  ⟨by decide, canon_dots_root ['/', '.', '.', '/', '/', '.', '.'] (by decide)⟩

/-- C6: for a request whose path begins with a separator, a permanent
redirect is produced iff the canonical path differs from the raw path;
when they agree the request is passed through unmodified; and the
redirect target is the original URI with only the path-and-query
portion replaced (canonical path, original query). -/
theorem redirect_iff_changed (u : Uri) (hroot : u.path.head? = some '/') :
    ((∃ r, call u = CallResult.redirect r) ↔ canonicalize u.path ≠ u.path) ∧
    (canonicalize u.path = u.path → call u = CallResult.passThrough u) ∧
    (∀ r, call u = CallResult.redirect r →
      r = ⟨u.scheme, u.authority, canonicalize u.path, u.query⟩) := by
  rcases call_cases u hroot with ⟨heq, hcall⟩ | ⟨hne, hcall⟩
  · refine ⟨⟨?_, ?_⟩, fun _ => hcall, ?_⟩
    · rintro ⟨r, hr⟩
      rw [hcall] at hr
      cases hr
    · intro hne
      exact absurd heq hne
    · intro r hr
      rw [hcall] at hr
      cases hr
  · refine ⟨⟨fun _ => hne, fun _ => ⟨_, hcall⟩⟩, fun hcontra => absurd hcontra hne, ?_⟩
    intro r hr
    rw [hcall] at hr
    injection hr with hr
    exact hr.symm

theorem redirect_iff_changed_witness :
    ((⟨none, none, ['/', 'a'], none⟩ : Uri).path.head? = some '/') ∧
      (∃ r, call ⟨none, none, ['/', 'a'], none⟩ = CallResult.redirect r) :=
  ⟨by decide,
    ((redirect_iff_changed ⟨none, none, ['/', 'a'], none⟩ (by decide)).1).mpr (by decide)⟩

/-- C7: whenever a redirect is produced, the target carries the original
request's query string verbatim (none when none was present), and the
original scheme and authority are unchanged. -/
theorem redirect_preserves_frame (u : Uri) (r : Uri)
    (h : call u = CallResult.redirect r) :
    r.query = u.query ∧ r.scheme = u.scheme ∧ r.authority = u.authority := by
  unfold call at h
  by_cases hf : fastCheck u.path = true
  · rw [if_pos hf] at h
    cases h
  · rw [if_neg hf] at h
    by_cases he : canonicalize u.path ≠ u.path
    · rw [if_pos he] at h
      injection h with h
      rw [← h]
      exact ⟨rfl, rfl, rfl⟩
    · rw [if_neg he] at h
      cases h

theorem redirect_preserves_frame_witness :
    call ⟨some ['h', 't', 't', 'p'], some ['x'], ['/', '/', 'a'], some ['q']⟩ =
      CallResult.redirect
        ⟨some ['h', 't', 't', 'p'], some ['x'], ['/', 'a', '/'], some ['q']⟩ ∧
    (⟨some ['h', 't', 't', 'p'], some ['x'], ['/', 'a', '/'], some ['q']⟩ : Uri).query =
        (⟨some ['h', 't', 't', 'p'], some ['x'], ['/', '/', 'a'], some ['q']⟩ : Uri).query ∧
      (⟨some ['h', 't', 't', 'p'], some ['x'], ['/', 'a', '/'], some ['q']⟩ : Uri).scheme =
        (⟨some ['h', 't', 't', 'p'], some ['x'], ['/', '/', 'a'], some ['q']⟩ : Uri).scheme ∧
      (⟨some ['h', 't', 't', 'p'], some ['x'], ['/', 'a', '/'], some ['q']⟩ : Uri).authority =
        (⟨some ['h', 't', 't', 'p'], some ['x'], ['/', '/', 'a'], some ['q']⟩ : Uri).authority :=
  ⟨by decide,
    redirect_preserves_frame
      ⟨some ['h', 't', 't', 'p'], some ['x'], ['/', '/', 'a'], some ['q']⟩
      ⟨some ['h', 't', 't', 'p'], some ['x'], ['/', 'a', '/'], some ['q']⟩ (by decide)⟩

/-- C8: every canonical path begins with a single leading separator,
contains no `"//"` substring (no empty segment between separators), and
contains no `"."` or `".."` segment. -/
theorem canon_invariants (p : List Char) :
    (canonicalize p).head? = some '/' ∧
    hasSub2 '/' '/' (canonicalize p) = false ∧
    ∀ s ∈ splitSegs (canonicalize p), s ≠ ['.'] ∧ s ≠ ['.', '.'] := by
  by_cases h1 : clean p = ['/']
  · rw [canonicalize_root h1]
    exact ⟨rfl, rfl, by decide⟩
  · have hsegs : cleanSegs p ≠ [] := cleanSegs_ne_nil_of_clean_ne_root h1
    have hgood := cleanSegs_good p
    have hgood2 : ∀ s ∈ cleanSegs p, s ≠ [] ∧ '/' ∉ s :=
      fun s hs => ⟨(hgood s hs).1, (hgood s hs).2.2.2⟩
    have hnos : ∀ s ∈ cleanSegs p, '/' ∉ s := fun s hs => (hgood s hs).2.2.2
    have hsplit : splitSegs (clean p) = [] :: cleanSegs p := by
      show splitSegs ('/' :: joinSegs (cleanSegs p)) = [] :: cleanSegs p
      rw [splitSegs_cons_sep, splitSegs_joinSegs (cleanSegs p) hsegs hnos]
    have hsplit2 : splitSegs (clean p ++ ['/']) = [] :: (cleanSegs p ++ [[]]) := by
      show splitSegs (('/' :: joinSegs (cleanSegs p)) ++ ['/']) = _
      rw [List.cons_append, splitSegs_cons_sep, splitSegs_append_last,
        splitSegs_joinSegs (cleanSegs p) hsegs hnos]
    have hnoDD : hasSub2 '/' '/' (clean p) = false :=
      noDD_joinSegs (cleanSegs p) hgood2
    have hnoDD2 : hasSub2 '/' '/' (clean p ++ ['/']) = false :=
      noDD_joinSegs_sep (cleanSegs p) hsegs hgood2
    by_cases h2 : (endsWithSep p || !has_ext (clean p)) = true
    · rw [canonicalize_push h1 h2]
      refine ⟨rfl, hnoDD2, ?_⟩
      rw [hsplit2]
      intro s hs
      rcases List.mem_cons.mp hs with rfl | hs
      · exact ⟨by simp, by simp⟩
      · rcases List.mem_append.mp hs with hh | hh
        · exact ⟨(hgood s hh).2.1, (hgood s hh).2.2.1⟩
        · have hse : s = [] := by simpa using hh
          rw [hse]
          exact ⟨by simp, by simp⟩
    · have h2' := bool_eq_false h2
      rw [canonicalize_keep h1 h2']
      refine ⟨rfl, hnoDD, ?_⟩
      rw [hsplit]
      intro s hs
      rcases List.mem_cons.mp hs with rfl | hs
      · exact ⟨by simp, by simp⟩
      · exact ⟨(hgood s hs).2.1, (hgood s hs).2.2.1⟩

/-- C10: for a request whose path begins with a separator, any request
passed through to the inner service has a path the canonicalizer leaves
unchanged, and any redirect targets a path different from the one
requested. -/
theorem downstream_canonical (u : Uri) (hroot : u.path.head? = some '/') :
    (∀ v, call u = CallResult.passThrough v → canonicalize v.path = v.path) ∧
    (∀ r, call u = CallResult.redirect r → r.path ≠ u.path) := by
  rcases call_cases u hroot with ⟨heq, hcall⟩ | ⟨hne, hcall⟩
  · constructor
    · intro v hv
      rw [hcall] at hv
      injection hv with hv
      rw [← hv]
      exact heq
    · intro r hr
      rw [hcall] at hr
      cases hr
  · constructor
    · intro v hv
      rw [hcall] at hv
      cases hv
    · intro r hr
      rw [hcall] at hr
      injection hr with hr
      rw [← hr]
      exact hne

theorem downstream_canonical_witness :
    ((⟨none, none, ['/', 'a'], none⟩ : Uri).path.head? = some '/') ∧
      (call ⟨none, none, ['/', 'a'], none⟩ =
          CallResult.redirect ⟨none, none, ['/', 'a', '/'], none⟩ →
        (⟨none, none, ['/', 'a', '/'], none⟩ : Uri).path ≠
          (⟨none, none, ['/', 'a'], none⟩ : Uri).path) :=
  ⟨by decide,
    (downstream_canonical ⟨none, none, ['/', 'a'], none⟩ (by decide)).2
      ⟨none, none, ['/', 'a', '/'], none⟩⟩

theorem utf8Run_zero_nil : utf8Run 0 [] = true := rfl

theorem utf8Run_succ_nil (n : Nat) : utf8Run (n + 1) [] = false := rfl

theorem utf8Run_succ_cons (n b : Nat) (rest : List Nat) :
    utf8Run (n + 1) (b :: rest) = (contB b && utf8Run n rest) := rfl

theorem utf8Run_zero_cons (b : Nat) (rest : List Nat) :
    utf8Run 0 (b :: rest) =
      (if b < 0x80 then utf8Run 0 rest
       else if b < 0xC0 then false
       else if b < 0xE0 then utf8Run 1 rest
       else if b < 0xF0 then utf8Run 2 rest
       else if b < 0xF8 then utf8Run 3 rest
       else false) := rfl

theorem contB_ne_dot {b : Nat} (h : contB b = true) : b ≠ 46 := by
  simp only [contB, Bool.and_eq_true, decide_eq_true_eq] at h
  omega

theorem utf8Run_boundary :
    ∀ (bs : List Nat) (i need : Nat), utf8Run need bs = true →
      bs.get? i = some 46 →
      utf8Run need (List.take (i + 1) bs) = true ∧
      utf8Run 0 (List.drop (i + 1) bs) = true := by
  intro bs
  induction bs with
  | nil =>
    intro i need _ hget
    simp at hget
  | cons b rest ih =>
    intro i need hrun hget
    cases need with
    | succ n =>
      rw [utf8Run_succ_cons, Bool.and_eq_true] at hrun
      obtain ⟨hc, hr⟩ := hrun
      cases i with
      | zero =>
        exfalso
        have hb : b = 46 := by simpa using hget
        exact contB_ne_dot hc hb
      | succ j =>
        have hget' : rest.get? j = some 46 := by simpa using hget
        obtain ⟨h1, h2⟩ := ih j n hr hget'
        constructor
        · rw [List.take_succ_cons, utf8Run_succ_cons, hc, h1]
          rfl
        · rw [List.drop_succ_cons]
          exact h2
    | zero =>
      cases i with
      | zero =>
        have hb : b = 46 := by simpa using hget
        subst hb
        constructor
        · rw [List.take_succ_cons, List.take_zero]
          decide
        · rw [List.drop_succ_cons, List.drop_zero]
          rw [utf8Run_zero_cons, if_pos (by norm_num)] at hrun
          exact hrun
      | succ j =>
        have hget' : rest.get? j = some 46 := by simpa using hget
        rw [utf8Run_zero_cons] at hrun
        rcases Nat.lt_or_ge b 0x80 with hb | hb
        · rw [if_pos hb] at hrun
          obtain ⟨h1, h2⟩ := ih j 0 hrun hget'
          constructor
          · rw [List.take_succ_cons, utf8Run_zero_cons, if_pos hb]
            exact h1
          · rw [List.drop_succ_cons]
            exact h2
        · rw [if_neg (show ¬ b < 0x80 by omega)] at hrun
          rcases Nat.lt_or_ge b 0xC0 with hb2 | hb2
          · rw [if_pos hb2] at hrun
            cases hrun
          · rw [if_neg (show ¬ b < 0xC0 by omega)] at hrun
            rcases Nat.lt_or_ge b 0xE0 with hb3 | hb3
            · rw [if_pos hb3] at hrun
              obtain ⟨h1, h2⟩ := ih j 1 hrun hget'
              constructor
              · rw [List.take_succ_cons, utf8Run_zero_cons,
                  if_neg (show ¬ b < 0x80 by omega),
                  if_neg (show ¬ b < 0xC0 by omega), if_pos hb3]
                exact h1
              · rw [List.drop_succ_cons]
                exact h2
            · rw [if_neg (show ¬ b < 0xE0 by omega)] at hrun
              rcases Nat.lt_or_ge b 0xF0 with hb4 | hb4
              · rw [if_pos hb4] at hrun
                obtain ⟨h1, h2⟩ := ih j 2 hrun hget'
                constructor
                · rw [List.take_succ_cons, utf8Run_zero_cons,
                    if_neg (show ¬ b < 0x80 by omega),
                    if_neg (show ¬ b < 0xC0 by omega),
                    if_neg (show ¬ b < 0xE0 by omega), if_pos hb4]
                  exact h1
                · rw [List.drop_succ_cons]
                  exact h2
              · rw [if_neg (show ¬ b < 0xF0 by omega)] at hrun
                rcases Nat.lt_or_ge b 0xF8 with hb5 | hb5
                · rw [if_pos hb5] at hrun
                  obtain ⟨h1, h2⟩ := ih j 3 hrun hget'
                  constructor
                  · rw [List.take_succ_cons, utf8Run_zero_cons,
                      if_neg (show ¬ b < 0x80 by omega),
                      if_neg (show ¬ b < 0xC0 by omega),
                      if_neg (show ¬ b < 0xE0 by omega),
                      if_neg (show ¬ b < 0xF0 by omega), if_pos hb5]
                    exact h1
                  · rw [List.drop_succ_cons]
                    exact h2
                · rw [if_neg (show ¬ b < 0xF8 by omega)] at hrun
                  cases hrun

theorem rfindDot_get :
    ∀ (bs : List Nat) (i : Nat), rfindDot bs = some i → bs.get? i = some 46 := by
  intro bs
  induction bs with
  | nil =>
    intro i h
    simp [rfindDot] at h
  | cons b rest ih =>
    intro i h
    rcases hr : rfindDot rest with _ | j
    · simp only [rfindDot, hr] at h
      by_cases hb : b = 46
      · rw [if_pos hb] at h
        injection h with h
        rw [← h]
        simp [hb]
      · rw [if_neg hb] at h
        cases h
    · simp only [rfindDot, hr] at h
      injection h with h
      rw [← h]
      simpa using ih j hr

/-- C9: on every byte string with the character structure of UTF-8, the
byte position returned by the last-dot search of `has_ext` is in
bounds, and the slice starting one past it lies on a character
boundary: both the prefix ending there and the suffix starting there
are again UTF-8 shaped, so `&path[index + 1..]` neither leaves the
buffer nor splits a character, and the byte-level `has_ext` is exactly
the emptiness-and-separator test on that suffix. -/
theorem has_ext_slice_safe (bs : List Nat) (i : Nat)
    (hshaped : utf8Shaped bs = true) (hfind : rfindDot bs = some i) :
    i + 1 ≤ bs.length ∧
    utf8Shaped (List.take (i + 1) bs) = true ∧
    utf8Shaped (List.drop (i + 1) bs) = true ∧
    has_extBytes bs =
      (!(List.drop (i + 1) bs).isEmpty && !(List.drop (i + 1) bs).contains 47) := by
  have hget : bs.get? i = some 46 := rfindDot_get bs i hfind
  have hlt : i < bs.length := by
    rcases List.get?_eq_some.mp hget with ⟨hh, _⟩
    exact hh
  obtain ⟨h1, h2⟩ := utf8Run_boundary bs i 0 hshaped hget
  refine ⟨hlt, h1, h2, ?_⟩
  simp [has_extBytes, hfind]

theorem has_ext_slice_safe_witness :
    utf8Shaped [47, 109, 46, 106, 115] = true ∧
      rfindDot [47, 109, 46, 106, 115] = some 2 ∧
      (2 + 1 ≤ ([47, 109, 46, 106, 115] : List Nat).length ∧
        utf8Shaped (List.take (2 + 1) [47, 109, 46, 106, 115]) = true ∧
        utf8Shaped (List.drop (2 + 1) [47, 109, 46, 106, 115]) = true ∧
        has_extBytes [47, 109, 46, 106, 115] =
          (!(List.drop (2 + 1) ([47, 109, 46, 106, 115] : List Nat)).isEmpty &&
            !(List.drop (2 + 1) ([47, 109, 46, 106, 115] : List Nat)).contains 47)) :=
  ⟨by decide, by decide,
    has_ext_slice_safe [47, 109, 46, 106, 115] 2 (by decide) (by decide)⟩
